import Mathlib

/-
  Verification of the block rendering and diffing engine of the robusta
  repository (src/robusta/core/reporting/blocks.py) against its
  natural-language specification.

  Python strings are modelled as lists of characters (`Str`), Python ints as
  `Nat`/`Int`, raised exceptions as `Option.none` (any exception aborts the
  call and discards partial state, so a single failure value is faithful).
-/

namespace Robusta

/-- Python `str` modelled as a list of characters. -/
abbrev Str := List Char

/-- Python truthiness of a string combined with the `or` operator:
`a or b` evaluates to `a` when `a` is non-empty, else to `b`. -/
def pythonOrStr (a b : Str) : Str := if a ≠ [] then a else b

/-! ## MarkdownBlock (blocks.py lines 31-53) -/

/-- `BLOCK_SIZE_LIMIT = 2997  # due to slack block size limit of 3000` -/
def BLOCK_SIZE_LIMIT : Nat := 2997

/-- Embedding of the truncation step of `MarkdownBlock.__init__`
(blocks.py lines 51-53), applied to the text after the optional dedent
normalization: `if len(text) >= BLOCK_SIZE_LIMIT: text = text[:BLOCK_SIZE_LIMIT] + "..."`. -/
def markdownStoredText (text : Str) : Str :=
  if BLOCK_SIZE_LIMIT ≤ text.length then text.take BLOCK_SIZE_LIMIT ++ "...".toList
  else text

/-! ## KubernetesDiffBlock (blocks.py lines 113-190) -/

/-- Modelled from the spec: the change-kind tag of a raw change record
produced by the external diffing library (hikaru `DiffType`); records are
tagged ADDED / REMOVED, and every other kind counts as a modification. -/
inductive DiffType
  | ADDED
  | REMOVED
  | VALUE_CHANGED
  | TYPE_CHANGED
deriving DecidableEq

/-- Modelled from the spec: one field-level change record between two
snapshots (hikaru `DiffDetail`, external); only `diff_type` is read by
the code under verification. -/
structure DiffDetail where
  diffType : DiffType
  path : Str
deriving DecidableEq

/-- Modelled from the spec: a snapshot object (hikaru `HikaruDocumentBase`,
external) exposes a `kind` attribute; `getattr(obj, "kind", "")` yields the
empty string when the attribute is absent, so absence is modelled as `[]`. -/
structure HikaruDocumentBase where
  kind : Str
deriving DecidableEq

/-- Embedding of `KubernetesDiffBlock._obj_to_content` (blocks.py lines
171-176); the YAML serializer `hikaru.get_yaml` is external and passed in
as `getYaml`. -/
def objToContent (getYaml : HikaruDocumentBase → Str) :
    Option HikaruDocumentBase → Str
  | none => []
  | some obj => getYaml obj

/-- Embedding of `KubernetesDiffBlock._obj_to_name` (blocks.py lines
178-190): `""` for a missing object, else
`f"{kind}/{namespace}/{name}.yaml"` with the kind and namespace segments
omitted when falsy. -/
def objToName : Option HikaruDocumentBase → Str → Str → Str
  | none, _, _ => []
  | some obj, name, ns =>
    let kind := obj.kind.map Char.toLower
    let objName := (if kind ≠ [] then kind ++ "/".toList else []) ++
      (if ns ≠ [] then ns ++ "/".toList else [])
    objName ++ name ++ ".yaml".toList

/-- The fields of `KubernetesDiffBlock` (blocks.py lines 118-126); `old`,
`new` are `Optional[str]` in the source, hence `Option Str` here. -/
structure KubernetesDiffBlock where
  diffs : List DiffDetail
  old : Option Str
  new : Option Str
  old_obj : Option HikaruDocumentBase
  new_obj : Option HikaruDocumentBase
  resource_name : Str
  num_additions : Nat
  num_deletions : Nat
  num_modifications : Nat

/-- Embedding of `KubernetesDiffBlock.__init__` (blocks.py lines 129-158).
Note that the `old`/`new` fields are set to `self._obj_to_content(...)`,
which is a string (possibly empty) and never `None`. -/
def KubernetesDiffBlock.mk' (getYaml : HikaruDocumentBase → Str)
    (interestingDiffs : List DiffDetail)
    (old new : Option HikaruDocumentBase) (name ns : Str) :
    KubernetesDiffBlock :=
  let numAdditions :=
    (interestingDiffs.filter (fun d => d.diffType == DiffType.ADDED)).length
  let numDeletions :=
    (interestingDiffs.filter (fun d => d.diffType == DiffType.REMOVED)).length
  let numModifications := interestingDiffs.length - numAdditions - numDeletions
  let resourceName :=
    pythonOrStr (objToName old name ns) (objToName new name ns)
  { diffs := interestingDiffs
    old := some (objToContent getYaml old)
    new := some (objToContent getYaml new)
    old_obj := old
    new_obj := new
    resource_name := resourceName
    num_additions := numAdditions
    num_deletions := numDeletions
    num_modifications := numModifications }

/-- Embedding of `KubernetesDiffBlock.get_description` (blocks.py lines
160-169). -/
def KubernetesDiffBlock.get_description (b : KubernetesDiffBlock) : Str :=
  match b.old with
  | none => "Resource created".toList
  | some _ =>
    match b.new with
    | none => "Resource deleted".toList
    | some _ =>
      "Updates to significant fields: ".toList ++
        (toString b.num_additions).toList ++ " additions, ".toList ++
        (toString b.num_deletions).toList ++ " deletions, ".toList ++
        (toString b.num_modifications).toList ++ " changes.".toList

/-! ## TableBlock (blocks.py lines 207-326)

Cell values are a type parameter `V` (rows may hold arbitrary Python values),
`pyStr : V → Str` models Python `str(...)`, renderer kinds are a type
parameter `R`, and the external `render_value` registry is passed in as
`renderValue : R → V → V`. -/

/-- Embedding of the Python list assignment `row[i] = f(row[i])`:
fails (IndexError) when `i` is out of range. -/
def setCell {V : Type} : List V → Nat → (V → V) → Option (List V)
  | [], _, _ => none
  | v :: vs, 0, f => some (f v :: vs)
  | v :: vs, n + 1, f => (setCell vs n f).map (fun r => v :: r)

/-- Embedding of `TableBlock.render_rows` (blocks.py lines 318-326):
returns `self.rows` when `column_renderers` is `None`; otherwise works on a
deep copy of the rows (pure values here, so the copy is the value itself),
looking up each renderer column's index in `headers` (`ValueError` → `none`
when absent) and replacing every row's cell at that index (`IndexError` →
`none` when a row is too short). -/
def renderRows {V R : Type} (headers : List Str) (rows : List (List V))
    (columnRenderers : Option (List (Str × R))) (renderValue : R → V → V) :
    Option (List (List V)) :=
  match columnRenderers with
  | none => some rows
  | some crs =>
    crs.foldlM (fun newRows p =>
      match headers.findIdx? (fun h => h == p.1) with
      | none => none
      | some columnIdx =>
        newRows.mapM (fun row => setCell row columnIdx (renderValue p.2)))
      rows

/-- Embedding of `TableBlock.__to_strings_rows` (blocks.py lines 291-294):
`str(...)` applied to every cell. -/
def toStringsRows {V : Type} (pyStr : V → Str) (rows : List (List V)) :
    List (List Str) :=
  rows.map (fun row => row.map pyStr)

/-- Embedding of the width-accumulation loop body of
`TableBlock.__calc_max_width` (blocks.py lines 250-252) for a single row:
`for idx, val in enumerate(row): columns_max_widths[idx] =
max(len(str(val)), columns_max_widths[idx])`. Structurally the loop walks
the row and the width list in lockstep; an index beyond the width list
raises IndexError (`none`). -/
def applyRow : List Nat → List Str → Option (List Nat)
  | widths, [] => some widths
  | [], _ :: _ => none
  | w :: ws, v :: vs => (applyRow ws vs).map (fun r => max v.length w :: r)

/-- Embedding of `TableBlock.__calc_max_width` (blocks.py lines 245-265).
The widths start from the header lengths, are raised by every row, and when
their sum exceeds `table_max_width` the first widest column is shrunk by the
overflow; the source first assigns `largest_width - diff` and then tests
`< 0`, which is the `largest < diff` test here (Python `max` of the
non-empty width list is `foldl max 0`, and `int(table_max_width / n)` on
non-negative operands is floor division). -/
def calcMaxWidth (headers : List Str) (renderedRows : List (List Str))
    (tableMaxWidth : Nat) : Option (List Nat) :=
  (renderedRows.foldlM applyRow (headers.map List.length)).map fun widths =>
    if tableMaxWidth < widths.sum then
      let largest := widths.foldl max 0
      let widestColumnIdx := widths.findIdx (fun w => w == largest)
      let diff := widths.sum - tableMaxWidth
      if largest < diff then
        List.replicate widths.length (tableMaxWidth / widths.length)
      else
        widths.set widestColumnIdx (largest - diff)
    else widths

/-- The natural column widths of the claim: for each header position, the
maximum of the header length and the lengths of that column's values over
all rows (a row lacking the column contributes nothing, since the empty
default has length 0). -/
def naturalWidths (headers : List Str) (rows : List (List Str)) : List Nat :=
  (List.range headers.length).map fun i =>
    rows.foldl (fun a row => max a ((row.getD i []).length)) ((headers.getD i []).length)

/-- Embedding of `TableBlock.to_table_string` (blocks.py lines 308-316) up
to the final call into the external `tabulate` library: the result is the
pair of arguments (rendered string rows, balanced column widths) handed to
`tabulate`; `none` models an exception escaping the method. -/
def toTableString {V R : Type} (pyStr : V → Str) (renderValue : R → V → V)
    (headers : List Str) (rows : List (List V))
    (columnRenderers : Option (List (Str × R))) (tableMaxWidth : Nat) :
    Option (List (List Str) × List Nat) :=
  match renderRows headers rows columnRenderers renderValue with
  | none => none
  | some rows' =>
    let renderedRows := toStringsRows pyStr rows'
    match calcMaxWidth headers renderedRows tableMaxWidth with
    | none => none
    | some colMaxWidth => some (renderedRows, colMaxWidth)

/-! ### Row trimming (blocks.py lines 267-289) -/

/-- Splitting at newline characters; helper for `splitlines`. Never returns
the empty list. -/
def splitOnNl : Str → List Str
  | [] => [[]]
  | c :: cs =>
    if c = '\n' then [] :: splitOnNl cs
    else
      match splitOnNl cs with
      | [] => [[c]]
      | l :: ls => (c :: l) :: ls

/-- Embedding of Python `str.splitlines()` for text whose only line
boundary character is LF (the only terminator occurring in rendered
tables): lines without their terminators, and no trailing empty line for
text ending in a newline. -/
def splitlines (s : Str) : List Str :=
  if s = [] then []
  else if s.getLast? = some '\n' then (splitOnNl s).dropLast
  else splitOnNl s

/-- Embedding of the greedy loop of `TableBlock.__trim_rows` (blocks.py
lines 279-287): starting from `length_so_far`, count how many whole lines
fit, where each line costs `len("\n") + len(line)`, and stop at the first
line that would push the total past `maxChars`. -/
def linesToInclude : List Str → Nat → Nat → Nat
  | [], _, _ => 0
  | line :: rest, lengthSoFar, maxChars =>
    let newLength := lengthSoFar + 1 + line.length
    if maxChars < newLength then 0
    else 1 + linesToInclude rest newLength maxChars

/-- The cost at which the greedy loop of `__trim_rows` accounts a list of
lines: one newline plus the line's length for every line. -/
def fitLength : List Str → Nat
  | [] => 0
  | l :: ls => 1 + l.length + fitLength ls

/-- Embedding of `TableBlock.__trim_rows` (blocks.py lines 267-289).
`max_chars -= len(truncator)` may go negative in Python; with `Nat`
truncated subtraction the loop behaves identically, because every line's
cost is at least 1 and so exceeds both 0 and any negative bound. -/
def trimRows (contents : Str) (maxChars : Nat) : Str :=
  if contents.length ≤ maxChars then contents
  else
    let truncator := "\n...".toList
    let maxChars' := maxChars - truncator.length
    let lines := splitlines contents
    let k := linesToInclude lines 0 maxChars'
    List.intercalate "\n".toList (lines.take k) ++ truncator

/-! ### A heap model of row mutation, for the `render_rows` frame property

The deep-copy-before-mutate behaviour of `render_rows` is about object
identity, which a pure value model cannot observe. `RowStore` models the
Python heap: a row object is a reference (its index into the store), the
block's `rows` attribute is a list of references, `deepcopy` allocates
fresh row objects, and `row[i] = v` writes through a reference. -/

structure RowStore (V : Type) where
  cells : List (List V)
deriving DecidableEq

/-- Dereference a row object. -/
def RowStore.read {V : Type} (s : RowStore V) (r : Nat) : List V :=
  s.cells.getD r []

/-- In-place update of a row object. -/
def RowStore.write {V : Type} (s : RowStore V) (r : Nat) (row : List V) :
    RowStore V :=
  ⟨s.cells.set r row⟩

/-- Allocate a fresh row object holding `row`; its reference is the old
store size. -/
def RowStore.alloc {V : Type} (s : RowStore V) (row : List V) :
    RowStore V × Nat :=
  (⟨s.cells ++ [row]⟩, s.cells.length)

/-- `new_rows = deepcopy(self.rows)`: fresh row objects holding copies of
the referenced rows, in order. -/
def deepcopyRows {V : Type} : RowStore V → List Nat → RowStore V × List Nat
  | s, [] => (s, [])
  | s, r :: rs =>
    let s1 := s.alloc (s.read r)
    let s2 := deepcopyRows s1.1 rs
    (s2.1, s1.2 :: s2.2)

/-- The inner loop of `render_rows`:
`for row in new_rows: row[column_idx] = render_value(..., row[column_idx])`,
writing through each reference in turn; an out-of-range index raises
(`none`). -/
def mutateColumn {V : Type} (s : RowStore V) (refs : List Nat)
    (columnIdx : Nat) (f : V → V) : Option (RowStore V) :=
  refs.foldlM (fun s' r => (setCell (s'.read r) columnIdx f).map (s'.write r)) s

/-- Embedding of `TableBlock.render_rows` (blocks.py lines 318-326) over
the heap model: mirrors `renderRows`, with the deep copy explicit. -/
def renderRowsStore {V R : Type} (headers : List Str) (s : RowStore V)
    (rowRefs : List Nat) (columnRenderers : Option (List (Str × R)))
    (renderValue : R → V → V) : Option (RowStore V × List Nat) :=
  match columnRenderers with
  | none => some (s, rowRefs)
  | some crs =>
    let sn := deepcopyRows s rowRefs
    (crs.foldlM (fun (s' : RowStore V) (p : Str × R) =>
        match headers.findIdx? (fun h => h == p.1) with
        | none => none
        | some columnIdx => mutateColumn s' sn.2 columnIdx (renderValue p.2))
      sn.1).map (fun sF => (sF, sn.2))

/-! ## ScanReportBlock.grade (blocks.py lines 429-442) -/

/-- Embedding of `ScanReportBlock.grade`; `score` is stored as a numeric
string and the method branches on `int(self.score)`, modelled here as the
integer value directly. -/
def grade (score : Int) : Str :=
  if 90 ≤ score then "A".toList
  else if 80 ≤ score then "B".toList
  else if 70 ≤ score then "C".toList
  else if 60 ≤ score then "D".toList
  else if 50 ≤ score then "E".toList
  else "F".toList

/-! ## Helper lemmas -/

/-- Each change record matches exactly one of the ADDED / REMOVED / other
filters, so the three filtered lengths partition the list. -/
theorem diffType_filter_partition (l : List DiffDetail) :
    (l.filter (fun d => d.diffType == DiffType.ADDED)).length +
      (l.filter (fun d => d.diffType == DiffType.REMOVED)).length +
      (l.filter (fun d =>
        d.diffType != DiffType.ADDED && d.diffType != DiffType.REMOVED)).length =
      l.length := by
  induction l with
  | nil => rfl
  | cons d rest ih =>
    rcases d with ⟨t, p⟩
    cases t <;> simp [List.filter_cons, beq_iff_eq, bne_iff_ne] <;> omega

/-- `_obj_to_name` of a present object always ends in `.yaml`, hence is a
non-empty (truthy) string. -/
theorem objToName_some_ne_nil (o : HikaruDocumentBase) (name ns : Str) :
    objToName (some o) name ns ≠ [] := by
  intro h
  have hlen := congrArg List.length h
  have h5 : (".yaml".toList).length = 5 := by decide
  simp only [objToName, List.length_append, List.length_nil, h5] at hlen
  omega

/-! ## C9 -/

/-- C9: `grade()` maps the integer value of `score` to a letter by fixed
thresholds: ≥90 → "A", 80..89 → "B", 70..79 → "C", 60..69 → "D",
50..59 → "E", below 50 → "F"; in particular 90 → "A", 89 → "B", 50 → "E"
and 10 → "F". -/
theorem grade_thresholds (s : Int) :
    (90 ≤ s → grade s = "A".toList) ∧
    (80 ≤ s ∧ s < 90 → grade s = "B".toList) ∧
    (70 ≤ s ∧ s < 80 → grade s = "C".toList) ∧
    (60 ≤ s ∧ s < 70 → grade s = "D".toList) ∧
    (50 ≤ s ∧ s < 60 → grade s = "E".toList) ∧
    (s < 50 → grade s = "F".toList) ∧
    grade 90 = "A".toList ∧ grade 89 = "B".toList ∧
    grade 50 = "E".toList ∧ grade 10 = "F".toList := by
  refine ⟨?_, ?_, ?_, ?_, ?_, ?_, by decide, by decide, by decide, by decide⟩ <;>
    · intro h
      unfold grade
      split_ifs <;> first | rfl | omega

/-- Witness for C9 at score 95. -/
theorem grade_thresholds_witness : grade 95 = "A".toList :=
  (grade_thresholds 95).1 (by decide)

/-! ## C2 -/

/-- C2 counterexample: an input of exactly 2997 characters is within the
claimed verbatim range (≤ 2997) but is not stored verbatim, because the
source truncates on `len(text) >= BLOCK_SIZE_LIMIT`. -/
theorem markdown_exact_limit_not_verbatim :
    (List.replicate 2997 'a').length ≤ 2997 ∧
      markdownStoredText (List.replicate 2997 'a') ≠ List.replicate 2997 'a' := by
  have hdots : ("...".toList).length = 3 := rfl
  constructor
  · rw [List.length_replicate]
  · intro h
    have hc : BLOCK_SIZE_LIMIT ≤ (List.replicate 2997 'a').length := by
      rw [List.length_replicate]
      exact le_rfl
    unfold markdownStoredText at h
    rw [if_pos hc] at h
    have hlen := congrArg List.length h
    simp only [List.length_append, List.length_take, List.length_replicate, hdots,
      BLOCK_SIZE_LIMIT] at hlen
    omega

/-- C2 (amended): the stored text is at most 2997 + 3 characters long;
input strictly shorter than 2997 characters is stored verbatim, and input
of length ≥ 2997 is truncated to its first 2997 characters with "..."
appended, giving exactly 3000 characters. -/
theorem markdown_truncation (text : Str) :
    (markdownStoredText text).length ≤ BLOCK_SIZE_LIMIT + 3 ∧
    (text.length < BLOCK_SIZE_LIMIT → markdownStoredText text = text) ∧
    (BLOCK_SIZE_LIMIT ≤ text.length →
      markdownStoredText text = text.take BLOCK_SIZE_LIMIT ++ "...".toList ∧
      (markdownStoredText text).length = BLOCK_SIZE_LIMIT + 3) := by
  have hdots : ("...".toList).length = 3 := rfl
  unfold markdownStoredText
  split_ifs with h
  · refine ⟨?_, fun hlt => absurd h (by omega), fun _ => ⟨rfl, ?_⟩⟩ <;>
      · rw [List.length_append, List.length_take, hdots]
        omega
  · exact ⟨by omega, fun _ => rfl, fun hge => absurd hge h⟩

/-- Witness for C2's amended theorem on a short input. -/
theorem markdown_truncation_witness : markdownStoredText "hi".toList = "hi".toList :=
  (markdown_truncation "hi".toList).2.1 (by decide)

/-! ## C1 -/

/-- C1 (code bug): a diff block constructed with one missing snapshot does
not report "Resource created" / "Resource deleted": the constructor stores
`_obj_to_content(...)`, which is a (possibly empty) string and never None,
so `get_description`'s None branches are unreachable and the count summary
is returned instead. -/
theorem get_description_ignores_missing_snapshots :
    (KubernetesDiffBlock.mk' (fun _ => "kind: Pod".toList) [] none
        (some ⟨"Pod".toList⟩) "n".toList []).get_description =
      "Updates to significant fields: 0 additions, 0 deletions, 0 changes.".toList ∧
    (KubernetesDiffBlock.mk' (fun _ => "kind: Pod".toList) []
        (some ⟨"Pod".toList⟩) none "n".toList []).get_description =
      "Updates to significant fields: 0 additions, 0 deletions, 0 changes.".toList ∧
    "Updates to significant fields: 0 additions, 0 deletions, 0 changes.".toList ≠
      "Resource created".toList ∧
    "Updates to significant fields: 0 additions, 0 deletions, 0 changes.".toList ≠
      "Resource deleted".toList := by
  refine ⟨rfl, rfl, by decide, by decide⟩

/-! ## C5 -/

/-- C5: for every constructed diff block, `num_additions` counts the ADDED
records, `num_deletions` counts the REMOVED records, `num_modifications`
counts every other record, and the three counts sum to the length of the
change list. -/
theorem diff_block_count_consistency (getYaml : HikaruDocumentBase → Str)
    (diffs : List DiffDetail) (old new : Option HikaruDocumentBase)
    (name ns : Str) :
    (KubernetesDiffBlock.mk' getYaml diffs old new name ns).num_additions =
      (diffs.filter (fun d => d.diffType == DiffType.ADDED)).length ∧
    (KubernetesDiffBlock.mk' getYaml diffs old new name ns).num_deletions =
      (diffs.filter (fun d => d.diffType == DiffType.REMOVED)).length ∧
    (KubernetesDiffBlock.mk' getYaml diffs old new name ns).num_modifications =
      (diffs.filter (fun d =>
        d.diffType != DiffType.ADDED && d.diffType != DiffType.REMOVED)).length ∧
    (KubernetesDiffBlock.mk' getYaml diffs old new name ns).num_additions +
      (KubernetesDiffBlock.mk' getYaml diffs old new name ns).num_deletions +
      (KubernetesDiffBlock.mk' getYaml diffs old new name ns).num_modifications =
      diffs.length := by
  have hpart := diffType_filter_partition diffs
  have hm : (KubernetesDiffBlock.mk' getYaml diffs old new name ns).num_modifications =
      diffs.length - (diffs.filter (fun d => d.diffType == DiffType.ADDED)).length -
        (diffs.filter (fun d => d.diffType == DiffType.REMOVED)).length := rfl
  have ha : (KubernetesDiffBlock.mk' getYaml diffs old new name ns).num_additions =
      (diffs.filter (fun d => d.diffType == DiffType.ADDED)).length := rfl
  have hd : (KubernetesDiffBlock.mk' getYaml diffs old new name ns).num_deletions =
      (diffs.filter (fun d => d.diffType == DiffType.REMOVED)).length := rfl
  refine ⟨ha, hd, ?_, ?_⟩
  · rw [hm]; omega
  · rw [ha, hd, hm]; omega

/-! ## C6 -/

/-- C6: `resource_name` is derived from the old snapshot when it is
present and otherwise from the new snapshot; for a present object it is
`<kind>/<namespace>/<name>.yaml` with the lowercased kind and the namespace
segments omitted when absent, and `<name>.yaml` in the minimal case. -/
theorem resource_name_derivation (getYaml : HikaruDocumentBase → Str)
    (diffs : List DiffDetail) (old new : Option HikaruDocumentBase)
    (name ns : Str) :
    (old ≠ none →
      (KubernetesDiffBlock.mk' getYaml diffs old new name ns).resource_name =
        objToName old name ns) ∧
    (old = none →
      (KubernetesDiffBlock.mk' getYaml diffs old new name ns).resource_name =
        objToName new name ns) ∧
    (∀ o : HikaruDocumentBase,
      objToName (some o) name ns =
        (if o.kind.map Char.toLower ≠ [] then o.kind.map Char.toLower ++ "/".toList else []) ++
          (if ns ≠ [] then ns ++ "/".toList else []) ++ name ++ ".yaml".toList) ∧
    (∀ o : HikaruDocumentBase, o.kind = [] → ns = [] →
      objToName (some o) name ns = name ++ ".yaml".toList) := by
  have hres : (KubernetesDiffBlock.mk' getYaml diffs old new name ns).resource_name =
      pythonOrStr (objToName old name ns) (objToName new name ns) := rfl
  refine ⟨?_, ?_, ?_, ?_⟩
  · intro hold
    match old with
    | some o =>
      rw [hres]
      unfold pythonOrStr
      rw [if_pos (objToName_some_ne_nil o name ns)]
    | none => exact absurd rfl hold
  · intro hold
    subst hold
    rw [hres]
    unfold pythonOrStr
    simp [objToName]
  · intro o
    simp only [objToName, List.append_assoc]
  · intro o hk hns
    simp [objToName, hk, hns]

/-- Witness for C6: a block built from an old Pod snapshot in namespace
"ns1" names the resource from the old snapshot. -/
theorem resource_name_derivation_witness :
    (KubernetesDiffBlock.mk' (fun _ => []) [] (some ⟨"Pod".toList⟩) none
      "n".toList "ns1".toList).resource_name =
      objToName (some ⟨"Pod".toList⟩) "n".toList "ns1".toList :=
  (resource_name_derivation (fun _ => []) [] (some ⟨"Pod".toList⟩) none
    "n".toList "ns1".toList).1 (by decide)

/-! ## Width computation lemmas (for C3 and C10) -/

/-- A row no longer than the width list is folded in pointwise:
`applyRow` succeeds and raises each width to the max with the row's cell
length at that position. -/
theorem applyRow_ok : ∀ (r : List Str) (w : List Nat), r.length ≤ w.length →
    ∃ w', applyRow w r = some w' ∧ w'.length = w.length ∧
      ∀ i, w'.getD i 0 = max (w.getD i 0) ((r.getD i []).length) := by
  intro r
  induction r with
  | nil =>
    intro w _
    refine ⟨w, ?_, rfl, fun i => ?_⟩
    · cases w <;> rfl
    · simp
  | cons v vs ih =>
    intro w hw
    match w with
    | [] => simp at hw
    | x :: ws =>
      obtain ⟨w'', h1, h2, h3⟩ := ih ws (by simpa using hw)
      refine ⟨max v.length x :: w'', by simp [applyRow, h1], by simp [h2], ?_⟩
      intro i
      cases i with
      | zero => simp [Nat.max_comm]
      | succ n => simpa using h3 n

/-- A row longer than the width list raises IndexError. -/
theorem applyRow_none : ∀ (r : List Str) (w : List Nat), w.length < r.length →
    applyRow w r = none := by
  intro r
  induction r with
  | nil => intro w hw; simp at hw
  | cons v vs ih =>
    intro w hw
    match w with
    | [] => rfl
    | x :: ws => simp [applyRow, ih ws (by simpa using hw)]

/-- Folding all rows into the initial widths succeeds when every row fits,
and computes the pointwise running maximum. -/
theorem foldWidths_ok : ∀ (rows : List (List Str)) (w : List Nat),
    (∀ r ∈ rows, r.length ≤ w.length) →
    ∃ w', rows.foldlM applyRow w = some w' ∧ w'.length = w.length ∧
      ∀ i, w'.getD i 0 =
        rows.foldl (fun a row => max a ((row.getD i []).length)) (w.getD i 0) := by
  intro rows
  induction rows with
  | nil => intro w _; exact ⟨w, rfl, rfl, fun i => rfl⟩
  | cons r0 rest ih =>
    intro w hw
    obtain ⟨w1, h1, hlen1, hget1⟩ := applyRow_ok r0 w (hw r0 (by simp))
    obtain ⟨w', h2, hlen2, hget2⟩ := ih w1 (fun r hr => hlen1 ▸ hw r (by simp [hr]))
    refine ⟨w', ?_, by rw [hlen2, hlen1], fun i => ?_⟩
    · rw [List.foldlM_cons, h1]
      exact h2
    · rw [hget2 i, List.foldl_cons, hget1 i]

/-- If some row is longer than the width list, the width fold raises. -/
theorem foldWidths_none : ∀ (rows : List (List Str)) (w : List Nat),
    (∃ r ∈ rows, w.length < r.length) → rows.foldlM applyRow w = none := by
  intro rows
  induction rows with
  | nil =>
    rintro w ⟨r, hr, _⟩
    simp at hr
  | cons r0 rest ih =>
    rintro w ⟨r, hr, hlong⟩
    rw [List.foldlM_cons]
    rcases List.mem_cons.mp hr with rfl | hr'
    · rw [applyRow_none r w hlong]
      rfl
    · by_cases h0 : r0.length ≤ w.length
      · obtain ⟨w1, h1, hlen1, _⟩ := applyRow_ok r0 w h0
        rw [h1]
        exact ih w1 ⟨r, hr', hlen1 ▸ hlong⟩
      · rw [applyRow_none r0 w (by omega)]
        rfl

/-- When every row fits under the headers, the width fold computes exactly
the natural widths of the claim. -/
theorem foldWidths_eq_naturalWidths (headers : List Str) (rows : List (List Str))
    (h : ∀ r ∈ rows, r.length ≤ headers.length) :
    rows.foldlM applyRow (headers.map List.length) =
      some (naturalWidths headers rows) := by
  obtain ⟨w', hfold, hlen, hget⟩ := foldWidths_ok rows (headers.map List.length)
    (by simpa using h)
  rw [hfold]
  congr 1
  apply List.ext_getElem
  · rw [hlen, List.length_map, naturalWidths, List.length_map, List.length_range]
  · intro i h1 h2
    have hiw : i < headers.length := by
      rw [hlen, List.length_map] at h1
      exact h1
    rw [← List.getD_eq_getElem w' 0 h1, hget i]
    have hnat : (naturalWidths headers rows)[i] =
        rows.foldl (fun a row => max a ((row.getD i []).length))
          ((headers.getD i []).length) := by
      simp [naturalWidths]
    rw [hnat]
    congr 1
    rw [List.getD_eq_getElem _ _ (by rwa [List.length_map]), List.getElem_map,
      List.getD_eq_getElem _ _ hiw]

/-- The seed of a `max` fold is a lower bound of the result. -/
theorem init_le_foldl_max : ∀ (l : List Nat) (a : Nat), a ≤ l.foldl max a := by
  intro l
  induction l with
  | nil => intro a; exact le_rfl
  | cons x xs ih => intro a; exact le_trans (Nat.le_max_left a x) (ih (max a x))

/-- Every member of the list is bounded by the `max` fold. -/
theorem mem_le_foldl_max : ∀ (l : List Nat) (a x : Nat), x ∈ l → x ≤ l.foldl max a := by
  intro l
  induction l with
  | nil => intro a x hx; simp at hx
  | cons y ys ih =>
    intro a x hx
    rcases List.mem_cons.mp hx with rfl | hx'
    · exact le_trans (Nat.le_max_right a x) (init_le_foldl_max ys (max a x))
    · exact ih (max a y) x hx'

/-- The `max` fold result is the seed or a member of the list. -/
theorem foldl_max_eq_or_mem : ∀ (l : List Nat) (a : Nat),
    l.foldl max a = a ∨ l.foldl max a ∈ l := by
  intro l
  induction l with
  | nil => intro a; exact Or.inl rfl
  | cons x xs ih =>
    intro a
    rcases ih (max a x) with h | h
    · rcases max_choice a x with hm | hm
      · exact Or.inl (by rw [List.foldl_cons, h, hm])
      · refine Or.inr ?_
        rw [List.foldl_cons, h, hm]
        exact List.mem_cons_self ..
    · exact Or.inr (List.mem_cons_of_mem x h)

/-- `findIdx` with an equality test finds the first index of a present
value: the index is in range and holds the value (Python `list.index`). -/
theorem findIdx_beq_spec : ∀ (l : List Nat) (v : Nat), v ∈ l →
    l.findIdx (fun w => w == v) < l.length ∧
      l.getD (l.findIdx (fun w => w == v)) 0 = v := by
  intro l
  induction l with
  | nil => intro v hv; simp at hv
  | cons x xs ih =>
    intro v hv
    rw [List.findIdx_cons]
    by_cases hx : x = v
    · simp [hx]
    · have hbv : (x == v) = false := by simp [hx]
      rw [hbv]
      have hv' : v ∈ xs := by
        rcases List.mem_cons.mp hv with h | h
        · exact absurd h.symm hx
        · exact h
      obtain ⟨h1, h2⟩ := ih v hv'
      simp only [cond_false]
      exact ⟨by simpa using Nat.succ_lt_succ h1, by simpa using h2⟩

/-- `getD` of a list element at an in-range index is a member. -/
theorem getD_mem_of_lt {α : Type} (l : List α) (i : Nat) (d : α) (h : i < l.length) :
    l.getD i d ∈ l := by
  rw [List.getD_eq_getElem _ _ h]
  exact List.getElem_mem ..

/-- `set` leaves every other position unchanged. -/
theorem getD_set_ne {α : Type} (l : List α) (i j : Nat) (a d : α) (hij : j ≠ i) :
    (l.set i a).getD j d = l.getD j d := by
  simp [List.getD_eq_getD_get?, List.get?_eq_getElem?,
    List.getElem?_set_ne (fun h => hij h.symm)]

/-! ## C3 -/

/-- C3: with every row fitting under the headers, the computed widths equal
the natural widths when their sum fits in the maximum table width; when the
sum overflows, there is a first widest column `j` (its width is the maximum
of all natural widths) and, if the overflow does not exceed that width, only
column `j` is shrunk, by exactly the overflow, all other columns keeping
their natural width; if the overflow exceeds it, every column instead gets
the equal share `maxW / columns` (floor). -/
theorem calc_max_width_balancing (headers : List Str) (rows : List (List Str))
    (maxW : Nat) (h : ∀ r ∈ rows, r.length ≤ headers.length) :
    let nw := naturalWidths headers rows
    (nw.sum ≤ maxW → calcMaxWidth headers rows maxW = some nw) ∧
    (maxW < nw.sum →
      ∃ j, j < nw.length ∧ nw.getD j 0 = nw.foldl max 0 ∧
        (∀ i, i < nw.length → nw.getD i 0 ≤ nw.getD j 0) ∧
        (nw.sum - maxW ≤ nw.getD j 0 →
          calcMaxWidth headers rows maxW =
            some (nw.set j (nw.getD j 0 - (nw.sum - maxW))) ∧
          ∀ i, i ≠ j →
            (nw.set j (nw.getD j 0 - (nw.sum - maxW))).getD i 0 = nw.getD i 0) ∧
        (nw.getD j 0 < nw.sum - maxW →
          calcMaxWidth headers rows maxW =
            some (List.replicate nw.length (maxW / nw.length)))) := by
  intro nw
  have hfold := foldWidths_eq_naturalWidths headers rows h
  have hcalc : calcMaxWidth headers rows maxW = some (
      if maxW < nw.sum then
        if nw.foldl max 0 < nw.sum - maxW then
          List.replicate nw.length (maxW / nw.length)
        else
          nw.set (nw.findIdx (fun w => w == nw.foldl max 0))
            (nw.foldl max 0 - (nw.sum - maxW))
      else nw) := by
    unfold calcMaxWidth
    rw [hfold]
    rfl
  constructor
  · intro hle
    rw [hcalc, if_neg (by omega)]
  · intro hgt
    have hmem : nw.foldl max 0 ∈ nw := by
      rcases foldl_max_eq_or_mem nw 0 with h0 | hm
      · exfalso
        have hsum0 : nw.sum = 0 := by
          apply List.sum_eq_zero
          intro x hx
          have hxle := mem_le_foldl_max nw 0 x hx
          omega
        omega
      · exact hm
    obtain ⟨hjlt, hjval⟩ := findIdx_beq_spec nw (nw.foldl max 0) hmem
    refine ⟨nw.findIdx (fun w => w == nw.foldl max 0), hjlt, hjval, ?_, ?_, ?_⟩
    · intro i hi
      rw [hjval]
      exact mem_le_foldl_max nw 0 _ (getD_mem_of_lt nw i 0 hi)
    · intro hdle
      rw [hjval] at hdle ⊢
      constructor
      · rw [hcalc, if_pos hgt, if_neg (by omega)]
      · intro i hij
        exact getD_set_ne nw _ i _ 0 hij
    · intro hdgt
      rw [hjval] at hdgt
      rw [hcalc, if_pos hgt, if_pos hdgt]

/-- Witness for C3 in the no-overflow case: natural widths [2, 2] fit in
width 10 and are returned unchanged. -/
theorem calc_max_width_balancing_witness :
    calcMaxWidth ["ab".toList, "c".toList] [["x".toList, "yy".toList]] 10 =
      some (naturalWidths ["ab".toList, "c".toList] [["x".toList, "yy".toList]]) := by
  have hmain := calc_max_width_balancing ["ab".toList, "c".toList]
    [["x".toList, "yy".toList]] 10 (by decide)
  exact hmain.1 (by decide)

/-! ## C10 -/

/-- C10: with no column renderers (the default empty mapping), rendering
raises an IndexError inside the width computation whenever some row has
more cells than there are headers, and succeeds whenever every row's length
is at most the number of headers. -/
theorem to_table_string_row_width (V R : Type) (pyStr : V → Str)
    (renderValue : R → V → V) (headers : List Str) (rows : List (List V))
    (maxW : Nat) :
    ((∃ r ∈ rows, headers.length < r.length) →
      toTableString pyStr renderValue headers rows (some []) maxW = none) ∧
    ((∀ r ∈ rows, r.length ≤ headers.length) →
      ∃ out, toTableString pyStr renderValue headers rows (some []) maxW = some out) := by
  constructor
  · rintro ⟨r, hr, hlong⟩
    have hnone : calcMaxWidth headers (toStringsRows pyStr rows) maxW = none := by
      unfold calcMaxWidth
      rw [foldWidths_none (toStringsRows pyStr rows) (headers.map List.length)
        ⟨r.map pyStr, List.mem_map_of_mem _ hr, by
          rw [List.length_map, List.length_map]
          exact hlong⟩]
      rfl
    show (match calcMaxWidth headers (toStringsRows pyStr rows) maxW with
          | none => none
          | some colMaxWidth => some (toStringsRows pyStr rows, colMaxWidth)) = none
    rw [hnone]
  · intro hall
    have hall' : ∀ r' ∈ toStringsRows pyStr rows, r'.length ≤ headers.length := by
      intro r' hr'
      obtain ⟨r, hr, rfl⟩ := List.mem_map.mp hr'
      rw [List.length_map]
      exact hall r hr
    have hfold := foldWidths_eq_naturalWidths headers (toStringsRows pyStr rows) hall'
    have hsome : ∃ w, calcMaxWidth headers (toStringsRows pyStr rows) maxW = some w := by
      unfold calcMaxWidth
      rw [hfold]
      exact ⟨_, rfl⟩
    obtain ⟨w, hw⟩ := hsome
    refine ⟨(toStringsRows pyStr rows, w), ?_⟩
    show (match calcMaxWidth headers (toStringsRows pyStr rows) maxW with
          | none => none
          | some colMaxWidth => some (toStringsRows pyStr rows, colMaxWidth)) =
      some (toStringsRows pyStr rows, w)
    rw [hw]

/-- Witness for C10: a block with the default empty headers and one
single-cell row errors in `to_table_string`. -/
theorem to_table_string_row_width_witness :
    toTableString (fun v : Str => v) (fun (_ : Unit) (v : Str) => v)
      [] [["x".toList]] (some []) 70 = none :=
  (to_table_string_row_width Str Unit (fun v => v) (fun _ v => v)
    [] [["x".toList]] 70).1 ⟨["x".toList], by simp, by simp⟩

/-! ## C8 -/

/-- `findIdx?` with an equality test fails on an absent value
(Python `list.index` raises ValueError). -/
theorem findIdx?_none_of_not_mem : ∀ (headers : List Str) (cn : Str) (i : Nat),
    cn ∉ headers → List.findIdx? (fun h => h == cn) headers i = none := by
  intro headers
  induction headers with
  | nil => intro cn i _; rfl
  | cons a rest ih =>
    intro cn i hcn
    simp only [List.mem_cons, not_or] at hcn
    rw [List.findIdx?_cons, if_neg (by simp [Ne.symm hcn.1])]
    exact ih cn (i + 1) hcn.2

/-- The renderer fold raises as soon as a renderer column is missing from
the headers (and never skips it). -/
theorem renderer_fold_unknown_column {V R : Type} (renderValue : R → V → V)
    (headers : List Str) :
    ∀ (crs : List (Str × R)) (rows : List (List V)),
    (∃ p ∈ crs, p.1 ∉ headers) →
    crs.foldlM (fun newRows p =>
      match headers.findIdx? (fun h => h == p.1) with
      | none => none
      | some columnIdx =>
        newRows.mapM (fun row => setCell row columnIdx (renderValue p.2)))
      rows = none := by
  intro crs
  induction crs with
  | nil =>
    rintro rows ⟨p, hp, _⟩
    simp at hp
  | cons q rest ih =>
    rintro rows ⟨p, hp, hnm⟩
    rw [List.foldlM_cons]
    rcases List.mem_cons.mp hp with rfl | hp'
    · rw [findIdx?_none_of_not_mem headers p.1 0 hnm]
      rfl
    · rcases hstep : (match headers.findIdx? (fun h => h == q.1) with
        | none => none
        | some columnIdx =>
          rows.mapM (fun row => setCell row columnIdx (renderValue q.2))) with _ | rows'
      · rw [hstep]
        rfl
      · rw [hstep]
        exact ih rows' ⟨p, hp', hnm⟩

/-- C8: a column renderer naming a column absent from the headers makes
`render_rows` (and hence `to_table_string`) raise a lookup error instead of
skipping the column or producing output. -/
theorem render_rows_unknown_column {V R : Type} (renderValue : R → V → V)
    (headers : List Str) (rows : List (List V)) (crs : List (Str × R))
    (h : ∃ p ∈ crs, p.1 ∉ headers) :
    renderRows headers rows (some crs) renderValue = none ∧
    ∀ (pyStr : V → Str) (tableMaxWidth : Nat),
      toTableString pyStr renderValue headers rows (some crs) tableMaxWidth = none := by
  have hmain : renderRows headers rows (some crs) renderValue = none :=
    renderer_fold_unknown_column renderValue headers crs rows h
  refine ⟨hmain, fun pyStr tableMaxWidth => ?_⟩
  unfold toTableString
  rw [hmain]

/-- Witness for C8: a renderer on column "b" with headers ["a"] errors. -/
theorem render_rows_unknown_column_witness :
    renderRows ["a".toList] ([] : List (List Str))
      (some [("b".toList, ())]) (fun (_ : Unit) (v : Str) => v) = none :=
  (render_rows_unknown_column (fun (_ : Unit) (v : Str) => v) ["a".toList] []
    [("b".toList, ())] ⟨("b".toList, ()), by simp, by decide⟩).1

/-! ## C4 -/

/-- The greedy line count is maximal: the counted prefix fits under the
budget at the loop's accounting (a newline per included line), the count
never exceeds the number of lines, and including one more line would
overflow the budget. -/
theorem linesToInclude_spec (maxC : Nat) : ∀ (ls : List Str) (sofar : Nat),
    sofar ≤ maxC →
    linesToInclude ls sofar maxC ≤ ls.length ∧
    sofar + fitLength (ls.take (linesToInclude ls sofar maxC)) ≤ maxC ∧
    (linesToInclude ls sofar maxC < ls.length →
      maxC < sofar + fitLength (ls.take (linesToInclude ls sofar maxC + 1))) := by
  intro ls
  induction ls with
  | nil =>
    intro sofar hs
    refine ⟨le_rfl, by simpa [fitLength] using hs, fun hlt => absurd hlt (by simp)⟩
  | cons line rest ih =>
    intro sofar hs
    by_cases hc : maxC < sofar + 1 + line.length
    · rw [show linesToInclude (line :: rest) sofar maxC = 0 from by
        simp [linesToInclude, hc]]
      refine ⟨Nat.zero_le _, by simpa [fitLength] using hs, fun _ => ?_⟩
      simp only [List.take_succ_cons, List.take_zero, fitLength]
      omega
    · have hnew : sofar + 1 + line.length ≤ maxC := by omega
      obtain ⟨h1, h2, h3⟩ := ih (sofar + 1 + line.length) hnew
      rw [show linesToInclude (line :: rest) sofar maxC =
          1 + linesToInclude rest (sofar + 1 + line.length) maxC from by
        simp [linesToInclude, hc]]
      refine ⟨by simp; omega, ?_, ?_⟩
      · rw [Nat.add_comm 1 (linesToInclude rest (sofar + 1 + line.length) maxC),
          List.take_succ_cons, fitLength]
        omega
      · intro hlt
        rw [Nat.add_comm 1 (linesToInclude rest (sofar + 1 + line.length) maxC),
          List.take_succ_cons, fitLength]
        have hlt' : linesToInclude rest (sofar + 1 + line.length) maxC < rest.length := by
          simp at hlt
          omega
        have := h3 hlt'
        omega

/-- C4: a string within the cap is returned unchanged; an over-long string
becomes the largest prefix of whole lines that fits the cap reduced by the
"\n..." suffix (counting one newline per included line), joined back with
newlines and followed by the suffix — never a partially cut line. -/
theorem trim_rows_whole_lines (contents : Str) (maxChars : Nat) :
    (contents.length ≤ maxChars → trimRows contents maxChars = contents) ∧
    (maxChars < contents.length →
      ∃ k, k ≤ (splitlines contents).length ∧
        trimRows contents maxChars =
          List.intercalate "\n".toList ((splitlines contents).take k) ++
            "\n...".toList ∧
        fitLength ((splitlines contents).take k) ≤
          maxChars - ("\n...".toList).length ∧
        (k < (splitlines contents).length →
          maxChars - ("\n...".toList).length <
            fitLength ((splitlines contents).take (k + 1)))) := by
  constructor
  · intro hle
    unfold trimRows
    rw [if_pos hle]
  · intro hgt
    have hnle : ¬ contents.length ≤ maxChars := by omega
    obtain ⟨h1, h2, h3⟩ := linesToInclude_spec (maxChars - ("\n...".toList).length)
      (splitlines contents) 0 (Nat.zero_le _)
    refine ⟨linesToInclude (splitlines contents) 0
      (maxChars - ("\n...".toList).length), h1, ?_, by simpa using h2,
      fun hlt => by simpa using h3 hlt⟩
    unfold trimRows
    rw [if_neg hnle]

/-- Witness for C4: "aa\nbb\ncc" trimmed to 7 characters keeps only whole
lines. -/
theorem trim_rows_whole_lines_witness :
    ∃ k, k ≤ (splitlines "aa\nbb\ncc".toList).length ∧
      trimRows "aa\nbb\ncc".toList 7 =
        List.intercalate "\n".toList ((splitlines "aa\nbb\ncc".toList).take k) ++
          "\n...".toList ∧
      fitLength ((splitlines "aa\nbb\ncc".toList).take k) ≤
        7 - ("\n...".toList).length ∧
      (k < (splitlines "aa\nbb\ncc".toList).length →
        7 - ("\n...".toList).length <
          fitLength ((splitlines "aa\nbb\ncc".toList).take (k + 1))) :=
  (trim_rows_whole_lines "aa\nbb\ncc".toList 7).2 (by decide)

/-! ## Heap-model lemmas (for C7) -/

/-- Reading back a written row. -/
theorem RowStore.read_write_self {V : Type} (s : RowStore V) (r : Nat)
    (row : List V) (h : r < s.cells.length) : (s.write r row).read r = row := by
  unfold RowStore.read RowStore.write
  simp [List.getD_eq_getD_get?, List.get?_eq_getElem?, List.getElem?_set_self, h]

/-- Writing one row object leaves every other row object unchanged. -/
theorem RowStore.read_write_ne {V : Type} (s : RowStore V) (r r' : Nat)
    (row : List V) (h : r' ≠ r) : (s.write r row).read r' = s.read r' := by
  unfold RowStore.read RowStore.write
  exact getD_set_ne _ r r' row [] h

/-- Writing preserves the store size. -/
theorem RowStore.length_write {V : Type} (s : RowStore V) (r : Nat)
    (row : List V) : (s.write r row).cells.length = s.cells.length := by
  unfold RowStore.write
  exact List.length_set ..

/-- The deep copy appends copies of the referenced rows to the store and
returns the consecutive fresh references. -/
theorem deepcopyRows_spec {V : Type} : ∀ (refs : List Nat) (s : RowStore V),
    (∀ r ∈ refs, r < s.cells.length) →
    (deepcopyRows s refs).1.cells = s.cells ++ refs.map s.read ∧
    (deepcopyRows s refs).2 = List.range' s.cells.length refs.length := by
  intro refs
  induction refs with
  | nil => intro s _; exact ⟨by simp [deepcopyRows], rfl⟩
  | cons r rs ih =>
    intro s h
    have hs1 : ∀ r' ∈ rs, r' < (s.cells ++ [s.read r]).length := by
      intro r' hr'
      rw [List.length_append]
      have := h r' (by simp [hr'])
      omega
    obtain ⟨ih1, ih2⟩ := ih ⟨s.cells ++ [s.read r]⟩ hs1
    have hmap : rs.map (RowStore.read ⟨s.cells ++ [s.read r]⟩) = rs.map s.read := by
      apply List.map_congr_left
      intro r' hr'
      show (s.cells ++ [s.read r]).getD r' [] = s.cells.getD r' []
      exact List.getD_append _ _ _ _ (h r' (by simp [hr']))
    constructor
    · simp only [deepcopyRows, RowStore.alloc]
      rw [ih1, hmap, List.append_assoc]
      simp
    · simp only [deepcopyRows, RowStore.alloc]
      rw [ih2, List.length_append]
      simp [List.range'_succ]

/-- Setting an in-range cell succeeds and preserves the row length. -/
theorem setCell_ok {V : Type} (f : V → V) : ∀ (row : List V) (j : Nat),
    j < row.length →
    ∃ row', setCell row j f = some row' ∧ row'.length = row.length := by
  intro row
  induction row with
  | nil => intro j hj; simp at hj
  | cons v vs ih =>
    intro j hj
    cases j with
    | zero => exact ⟨f v :: vs, rfl, rfl⟩
    | succ n =>
      obtain ⟨row', h1, h2⟩ := ih n (by simpa using hj)
      exact ⟨v :: row', by simp [setCell, h1], by simp [h2]⟩

/-- Writing one column through a list of distinct valid references succeeds,
touches no other row object, preserves row lengths, and produces exactly the
pure per-row substitution of the referenced rows. -/
theorem mutateColumn_ok {V : Type} (f : V → V) (j : Nat) :
    ∀ (refs : List Nat) (s : RowStore V),
    refs.Nodup → (∀ r ∈ refs, r < s.cells.length) →
    (∀ r ∈ refs, j < (s.read r).length) →
    ∃ s', mutateColumn s refs j f = some s' ∧
      s'.cells.length = s.cells.length ∧
      (∀ r, r ∉ refs → s'.read r = s.read r) ∧
      (∀ r ∈ refs, (s'.read r).length = (s.read r).length) ∧
      (refs.map s.read).mapM (fun row => setCell row j f) =
        some (refs.map s'.read) := by
  intro refs
  induction refs with
  | nil =>
    intro s _ _ _
    exact ⟨s, rfl, rfl, fun _ _ => rfl, fun r hr => absurd hr (by simp), rfl⟩
  | cons r rs ih =>
    intro s hnd hlt hcov
    obtain ⟨row', hset, hrowlen⟩ := setCell_ok f (s.read r) j (hcov r (by simp))
    have hr_lt : r < s.cells.length := hlt r (by simp)
    have hr_notin : r ∉ rs := (List.nodup_cons.mp hnd).1
    have hlt1 : ∀ r' ∈ rs, r' < (s.write r row').cells.length := by
      intro r' hr'
      rw [RowStore.length_write]
      exact hlt r' (by simp [hr'])
    have hread1 : ∀ r' ∈ rs, (s.write r row').read r' = s.read r' := by
      intro r' hr'
      exact RowStore.read_write_ne s r r' row' (fun he => hr_notin (he ▸ hr'))
    obtain ⟨s', h1, h2, h3, h4, h5⟩ := ih (s.write r row') (List.nodup_cons.mp hnd).2
      hlt1 (fun r' hr' => by rw [hread1 r' hr']; exact hcov r' (by simp [hr']))
    have hreadr : s'.read r = row' := by
      rw [h3 r hr_notin, RowStore.read_write_self s r row' hr_lt]
    refine ⟨s', ?_, by rw [h2, RowStore.length_write], ?_, ?_, ?_⟩
    · unfold mutateColumn
      rw [List.foldlM_cons]
      have hstep : (setCell (s.read r) j f).map (s.write r) = some (s.write r row') := by
        rw [hset]
        rfl
      rw [hstep]
      exact h1
    · intro r'' hr''
      simp only [List.mem_cons, not_or] at hr''
      rw [h3 r'' hr''.2]
      exact RowStore.read_write_ne s r r'' row' hr''.1
    · intro r'' hr''
      rcases List.mem_cons.mp hr'' with rfl | hmem
      · rw [hreadr, hrowlen]
      · rw [h4 r'' hmem, hread1 r'' hmem]
    · have h5' : (rs.map s.read).mapM (fun row => setCell row j f) =
          some (rs.map s'.read) := by
        rw [← List.map_congr_left hread1]
        exact h5
      rw [List.map_cons, List.mapM_cons, hset, h5', List.map_cons, hreadr]
      rfl

/-- The renderer fold over the heap succeeds under valid columns, leaves
every row object outside the reference list untouched, preserves row
lengths, and agrees with the pure renderer fold on the referenced rows. -/
theorem crsFold_ok {V R : Type} (renderValue : R → V → V) (headers : List Str)
    (refs : List Nat) (hnd : refs.Nodup) :
    ∀ (crs : List (Str × R)) (s : RowStore V),
    (∀ r ∈ refs, r < s.cells.length) →
    (∀ p ∈ crs, ∃ j, headers.findIdx? (fun h => h == p.1) = some j ∧
      ∀ r ∈ refs, j < (s.read r).length) →
    ∃ s', crs.foldlM (fun (s' : RowStore V) (p : Str × R) =>
        match headers.findIdx? (fun h => h == p.1) with
        | none => none
        | some columnIdx => mutateColumn s' refs columnIdx (renderValue p.2)) s =
        some s' ∧
      s'.cells.length = s.cells.length ∧
      (∀ r, r ∉ refs → s'.read r = s.read r) ∧
      (∀ r ∈ refs, (s'.read r).length = (s.read r).length) ∧
      crs.foldlM (fun newRows p =>
        match headers.findIdx? (fun h => h == p.1) with
        | none => none
        | some columnIdx =>
          newRows.mapM (fun row => setCell row columnIdx (renderValue p.2)))
        (refs.map s.read) = some (refs.map s'.read) := by
  intro crs
  induction crs with
  | nil =>
    intro s _ _
    exact ⟨s, rfl, rfl, fun _ _ => rfl, fun _ _ => rfl, rfl⟩
  | cons p rest ih =>
    intro s hlt hcols
    obtain ⟨j, hj, hcov⟩ := hcols p (by simp)
    obtain ⟨s1, hm1, hlen1, hout1, hinlen1, hmapM1⟩ :=
      mutateColumn_ok (renderValue p.2) j refs s hnd hlt hcov
    obtain ⟨s', hf2, hlen2, hout2, hinlen2, hfold2⟩ := ih s1
      (by intro r hr; rw [hlen1]; exact hlt r hr)
      (by
        intro q hq
        obtain ⟨j', hj', hcov'⟩ := hcols q (by simp [hq])
        exact ⟨j', hj', fun r hr => by rw [hinlen1 r hr]; exact hcov' r hr⟩)
    refine ⟨s', ?_, by rw [hlen2, hlen1], ?_, ?_, ?_⟩
    · rw [List.foldlM_cons]
      simp only [hj]
      rw [hm1]
      exact hf2
    · intro r hr
      rw [hout2 r hr, hout1 r hr]
    · intro r hr
      rw [hinlen2 r hr, hinlen1 r hr]
    · rw [List.foldlM_cons]
      simp only [hj]
      rw [hmapM1]
      exact hfold2

/-- Reading the appended block of a store through consecutive references
starting at the original length recovers the appended rows. -/
theorem map_getD_range' {α : Type} : ∀ (post : List (List α)) (pre : List (List α)),
    (List.range' pre.length post.length).map (fun r => (pre ++ post).getD r []) =
      post := by
  intro post
  induction post with
  | nil => intro pre; rfl
  | cons x xs ih =>
    intro pre
    simp only [List.length_cons]
    rw [List.range'_succ, List.map_cons]
    congr 1
    · rw [List.getD_append_right _ _ _ _ le_rfl]
      simp
    · have hthis := ih (pre ++ [x])
      rw [List.length_append] at hthis
      have hassoc : (pre ++ [x]) ++ xs = pre ++ x :: xs := by simp
      rw [hassoc] at hthis
      simpa using hthis

/-! ## C7 -/

/-- C7 counterexample: with headers ["a", "b"], a renderer on column "b"
(which does appear in the headers) and a row holding a single cell,
`render_rows` raises an IndexError instead of returning new row data. -/
theorem render_rows_short_row_counterexample :
    (∀ p ∈ ([("b".toList, ())] : List (Str × Unit)),
      p.1 ∈ [("a".toList : Str), "b".toList]) ∧
    renderRowsStore ["a".toList, "b".toList]
      (⟨[["x".toList]]⟩ : RowStore Str) [0]
      (some [("b".toList, ())]) (fun _ v => v) = none := by
  constructor
  · decide
  · decide

/-- C7 (amended): when every renderer column appears in the headers and
every referenced row is long enough for every renderer column,
`render_rows` succeeds over the heap model, the original row objects are
unchanged after the call (thanks to the deep copy), and the returned fresh
rows carry exactly the pure substitution of the original rows. -/
theorem render_rows_frame {V R : Type} (renderValue : R → V → V)
    (headers : List Str) (s : RowStore V) (rowRefs : List Nat)
    (crs : List (Str × R))
    (hrefs : ∀ r ∈ rowRefs, r < s.cells.length)
    (hcols : ∀ p ∈ crs, ∃ j, headers.findIdx? (fun h => h == p.1) = some j ∧
      ∀ r ∈ rowRefs, j < (s.read r).length) :
    ∃ sF newRefs,
      renderRowsStore headers s rowRefs (some crs) renderValue =
        some (sF, newRefs) ∧
      (∀ r ∈ rowRefs, sF.read r = s.read r) ∧
      renderRows headers (rowRefs.map s.read) (some crs) renderValue =
        some (newRefs.map sF.read) := by
  obtain ⟨hc1, hc2⟩ := deepcopyRows_spec rowRefs s hrefs
  have hlen1 : (deepcopyRows s rowRefs).1.cells.length =
      s.cells.length + rowRefs.length := by
    rw [hc1, List.length_append, List.length_map]
  have hnd : (deepcopyRows s rowRefs).2.Nodup := by
    rw [hc2]
    exact List.nodup_range' ..
  have hlt : ∀ r ∈ (deepcopyRows s rowRefs).2,
      r < (deepcopyRows s rowRefs).1.cells.length := by
    intro r hr
    rw [hc2, List.mem_range'_1] at hr
    omega
  have hge : ∀ r ∈ (deepcopyRows s rowRefs).2, s.cells.length ≤ r := by
    intro r hr
    rw [hc2, List.mem_range'_1] at hr
    exact hr.1
  have hreads : (deepcopyRows s rowRefs).2.map (deepcopyRows s rowRefs).1.read =
      rowRefs.map s.read := by
    have hmr := map_getD_range' (rowRefs.map s.read) s.cells
    rw [List.length_map] at hmr
    rw [hc2]
    calc (List.range' s.cells.length rowRefs.length).map
          (deepcopyRows s rowRefs).1.read
        = (List.range' s.cells.length rowRefs.length).map
          (fun r => (s.cells ++ rowRefs.map s.read).getD r []) := by
          apply List.map_congr_left
          intro r _
          show (deepcopyRows s rowRefs).1.cells.getD r [] = _
          rw [hc1]
      _ = rowRefs.map s.read := hmr
  have hcols1 : ∀ p ∈ crs, ∃ j, headers.findIdx? (fun h => h == p.1) = some j ∧
      ∀ r ∈ (deepcopyRows s rowRefs).2, j < ((deepcopyRows s rowRefs).1.read r).length := by
    intro p hp
    obtain ⟨j, hj, hcov⟩ := hcols p hp
    refine ⟨j, hj, fun r hr => ?_⟩
    have hmem : (deepcopyRows s rowRefs).1.read r ∈ rowRefs.map s.read :=
      hreads ▸ List.mem_map_of_mem _ hr
    obtain ⟨r0, hr0, heq⟩ := List.mem_map.mp hmem
    rw [← heq]
    exact hcov r0 hr0
  obtain ⟨sF, hfold, hlenF, houtF, hinlenF, hpure⟩ :=
    crsFold_ok renderValue headers (deepcopyRows s rowRefs).2 hnd crs
      (deepcopyRows s rowRefs).1 hlt hcols1
  have hrrs : renderRowsStore headers s rowRefs (some crs) renderValue =
      (crs.foldlM (fun (s' : RowStore V) (p : Str × R) =>
        match headers.findIdx? (fun h => h == p.1) with
        | none => none
        | some columnIdx =>
          mutateColumn s' (deepcopyRows s rowRefs).2 columnIdx (renderValue p.2))
        (deepcopyRows s rowRefs).1).map
        (fun sF => (sF, (deepcopyRows s rowRefs).2)) := rfl
  refine ⟨sF, (deepcopyRows s rowRefs).2, ?_, ?_, ?_⟩
  · rw [hrrs, hfold]
    rfl
  · intro r hr
    have hnotin : r ∉ (deepcopyRows s rowRefs).2 := by
      intro hmem
      have h1 := hge r hmem
      have h2 := hrefs r hr
      omega
    rw [houtF r hnotin]
    show (deepcopyRows s rowRefs).1.cells.getD r [] = s.cells.getD r []
    rw [hc1]
    exact List.getD_append _ _ _ _ (hrefs r hr)
  · have hrp : renderRows headers (rowRefs.map s.read) (some crs) renderValue =
        crs.foldlM (fun (newRows : List (List V)) (p : Str × R) =>
          match headers.findIdx? (fun h => h == p.1) with
          | none => none
          | some columnIdx =>
            newRows.mapM (fun row => setCell row columnIdx (renderValue p.2)))
          (rowRefs.map s.read) := rfl
    rw [hrp, ← hreads]
    exact hpure

/-- Witness for C7's amended theorem: one two-cell row, a renderer on the
second column. -/
theorem render_rows_frame_witness :
    ∃ sF newRefs,
      renderRowsStore ["a".toList, "b".toList]
        (⟨[["x".toList, "y".toList]]⟩ : RowStore Str) [0]
        (some [("b".toList, ())]) (fun (_ : Unit) (v : Str) => v) =
        some (sF, newRefs) ∧
      (∀ r ∈ [0], sF.read r =
        (⟨[["x".toList, "y".toList]]⟩ : RowStore Str).read r) ∧
      renderRows ["a".toList, "b".toList]
        ([0].map (⟨[["x".toList, "y".toList]]⟩ : RowStore Str).read)
        (some [("b".toList, ())]) (fun _ v => v) = some (newRefs.map sF.read) :=
  render_rows_frame (fun (_ : Unit) (v : Str) => v) ["a".toList, "b".toList]
    ⟨[["x".toList, "y".toList]]⟩ [0] [("b".toList, ())] (by decide)
    (by
      intro p hp
      simp only [List.mem_singleton] at hp
      subst hp
      exact ⟨1, by decide, by decide⟩)

end Robusta
